import Mathlib

/-!
# Verification of goregen (random string generation from regular expressions)

Shallow embedding of the goregen library.  The repository snapshot contains
several revisions of some files concatenated together; where two revisions of
the same function exist, the later revision (the one the specification
describes, e.g. `ParseCharClass` with the zero-start clamp and the
`NewCharClassRange` validation) is the one embedded here.

Modelling conventions:
* Go strings produced by the generators are modelled as lists of runes
  (`Str := List Int`); `util.RunesToString` is the identity embedding.
* A Go `panic` is modelled as `Option.none` (`GetRuneAt` out of bounds,
  `rand.Intn`/`Int31n` on a non-positive bound, `NewCharClassRange`
  validation failures); recoverable compile errors are `Except.error` values,
  so the two failure modes stay distinct.
* `math/rand.Rand` is external to the repository; it is modelled as a stream
  of raw draws (`RngState`), where a bounded draw `Intn n` consumes one raw
  value `v` and yields `v % n` — an abstract uniform draw over `[0, n)`:
  every value in `[0, n)` is attainable, and the draw panics (`none`) when
  `n ≤ 0`, exactly as `math/rand` documents.
* Machine integers (`int`, `int32`/`rune`, `int64`) are modelled as `Int`;
  none of the verified code paths approach the 64-bit boundary.  `uint64`
  arithmetic in the xorshift source is modelled as `Nat` with explicit
  `% 2^64`.
-/

/-- Generated strings as lists of runes. -/
def Str : Type := List Int

deriving instance DecidableEq for Str

instance : Append Str := ⟨fun a b => List.append a b⟩

instance : EmptyCollection Str := ⟨([] : List Int)⟩

/-- `util.RunesToString`: converts runes to a string.  With strings modelled
as rune lists this is the identity embedding. -/
def RunesToString (runes : List Int) : Str := runes

/-- Model of the state of an external `math/rand.Rand`: an infinite stream of
raw nonnegative draws together with a cursor.  Each primitive draw consumes
one stream element. -/
structure RngState where
  stream : Nat → Nat
  idx : Nat

/-- `rand.Intn` / `rand.Int31n`: a bounded draw.  Panics (`none`) when the
bound is not positive; otherwise consumes one raw value and reduces it into
`[0, n)` (the model of a uniform draw over that interval). -/
def rngIntn (r : RngState) (n : Int) : Option (Nat × RngState) :=
  if n ≤ 0 then none
  else some (r.stream r.idx % n.toNat, ⟨r.stream, r.idx + 1⟩)

/-- `rand.Int31`: an unbounded 31-bit draw; never panics. -/
def rngInt31 (r : RngState) : Nat × RngState :=
  (r.stream r.idx % 2 ^ 31, ⟨r.stream, r.idx + 1⟩)


namespace util

/-- `util.Abs` on `int32`. -/
def Abs (i : Int) : Int := if i < 0 then -i else i

/-- `CharClassRange` (later revision of `char_class.go`): a single inclusive
range of a character class, stored as start codepoint and size. -/
structure CharClassRange where
  Start : Int
  Size : Int
deriving DecidableEq, Repr

/-- `NewCharClassRange` (later revision): validates and builds a range.
Both validation failures are Go `panic`s, modelled as `none` — fatal,
as opposed to the `Except.error` values compilation returns. -/
def NewCharClassRange (start : Int) (end_ : Int) : Option CharClassRange :=
  if start < 1 then none
  else if end_ - start + 1 < 1 then none
  else some ⟨start, end_ - start + 1⟩

/-- `CharClass`: the ranges in parser-supplied order plus the cached total
size. -/
structure CharClass where
  Ranges : List CharClassRange
  TotalSize : Int
deriving DecidableEq, Repr

/-- Sum of the sizes of a list of ranges (the running `totalSize`
accumulator of `ParseCharClass`). -/
def sumSizes (rs : List CharClassRange) : Int :=
  (rs.map CharClassRange.Size).sum

/-- The pair-consuming loop of `ParseCharClass` (later revision): the Go code
iterates `i` over `0 ..< len(runes)/2`, reading `runes[2i]` and `runes[2i+1]`;
consuming the list two elements at a time is the same traversal (a trailing
odd element is ignored, matching the integer division by 2).  A start
codepoint of 0 is clamped to 1 before the range is constructed. -/
def parseRanges : List Int → Option (List CharClassRange)
  | start :: end_ :: rest => do
      let start := if start == 0 then 1 else start
      let r ← NewCharClassRange start end_
      let rs ← parseRanges rest
      some (r :: rs)
  | _ => some []

/-- `ParseCharClass` (later revision of `char_class.go`). -/
def ParseCharClass (runes : List Int) : Option CharClass := do
  let rs ← parseRanges runes
  some ⟨rs, sumSizes rs⟩

/-- The linear scan of `GetRuneAt` over the range list: subtract each range's
size from `i` until `i < r.Size`, then return `r.Start + i`.  Falling off the
end is the `panic("index out of bounds")`, modelled as `none`. -/
def getRuneAtRanges : List CharClassRange → Int → Option Int
  | [], _ => none
  | r :: rest, i => if i < r.Size then some (r.Start + i) else getRuneAtRanges rest (i - r.Size)

/-- `(*CharClass).GetRuneAt`. -/
def CharClass.GetRuneAt (c : CharClass) (i : Int) : Option Int :=
  getRuneAtRanges c.Ranges i

/-- Spec-side reference view for C5: the class as the concatenation of its
ranges, each range expanded to its codepoints in order. -/
def rangeElems (r : CharClassRange) : List Int :=
  (List.range r.Size.toNat).map (fun (k : Nat) => r.Start + (k : Int))

/-- Spec-side reference view for C5: all codepoints of the class in stored
range order. -/
def classElems (rs : List CharClassRange) : List Int :=
  (rs.map rangeElems).flatten

end util

/-- Width of Go `uint64` arithmetic. -/
def U64 : Nat := 2 ^ 64

/-- Go's `uint64(seed)` conversion of an `int64`: two's-complement
reduction modulo `2^64`. -/
def u64ofInt (i : Int) : Nat := (i % (2 ^ 64 : Int)).toNat

/-- `xorShift64Source` (the xorshift file of the snapshot): a single
`uint64` state variable. -/
structure xorShift64Source where
  state : Nat
deriving DecidableEq, Repr

/-- `newXorShift64Source`: a zero seed would only generate zeros, so a seed
of exactly 0 is coerced to 1 before being stored. -/
def newXorShift64Source (seed : Int) : xorShift64Source :=
  let seed := if seed == 0 then 1 else seed
  ⟨u64ofInt seed⟩

/-- `(*xorShift64Source).Seed`: stores the raw converted value.  Note that
this path performs no zero-seed coercion. -/
def xorShift64Source.Seed (_src : xorShift64Source) (seed : Int) : xorShift64Source :=
  ⟨u64ofInt seed⟩

/-- `(*xorShift64Source).Int63`: shift-xor-shift with shift amounts
12/25/27 (the left shift wraps modulo `2^64`), state updated, then the new
state is multiplied by the fixed odd constant and right-shifted by 1 to
yield a nonnegative 63-bit value. -/
def xorShift64Source.Int63 (src : xorShift64Source) : Nat × xorShift64Source :=
  let x := src.state
  let x := x ^^^ (x >>> 12)
  let x := x ^^^ ((x <<< 25) % U64)
  let x := x ^^^ (x >>> 27)
  ((x * 2685821657736338717) % U64 >>> 1, ⟨x⟩)

/-- The first `n` `Int63` outputs of a source, in draw order. -/
def int63Outputs (src : xorShift64Source) : Nat → List Nat
  | 0 => []
  | n + 1 =>
      let (v, src') := src.Int63
      v :: int63Outputs src' n

/-- `serialExecutor.Execute`: append each child's result to the buffer in
index order.  Each child generator is modelled by the result it produces
(the claim under verification fixes "the same per-child results"; the mock
generators in the repository's executor tests are of exactly this shape). -/
def serialExecute (results : List Str) : Str :=
  results.foldl (fun buf s => buf ++ s) (∅ : Str)

/-- One completed task of `forkJoinExecutor.Execute`: the goroutine for
child `i` writes that child's result into slot `i` of the results slice. -/
def writeSlot (results : List Str) (slots : List Str) (i : Nat) : List Str :=
  slots.set i (results.getD i ∅)

/-- `forkJoinExecutor.Execute`: allocate one result slot per child, run one
task per child — the tasks complete in an arbitrary scheduler-chosen order
`order`, each writing only its own slot — wait for all of them (the
`WaitGroup` join barrier), then join the slots in slot-index order. -/
def forkJoinExecute (results : List Str) (order : List Nat) : Str :=
  ((order.foldl (writeSlot results) (List.replicate results.length ∅)).foldl
    (fun buf s => buf ++ s) (∅ : Str))

/-- `rand.Source` values as they occur in the library: the fast xorshift
source, the mutex-guarded adapter, or a caller-supplied external source. -/
inductive RandSource where
  | xorShift (src : xorShift64Source)
  | locked (src : RandSource)
  | external (id : Nat)
deriving DecidableEq, Repr

/-- `newLockedSource` (`locked_source.go`): wraps a source in the
mutex-guarded adapter. -/
def newLockedSource (src : RandSource) : RandSource := .locked src

/-- The two execution strategies of `GeneratorArgs.Executor`. -/
inductive ExecutorKind where
  | serial
  | forkJoin
deriving DecidableEq, Repr

/-- The `PrepareSource` methods: `serialExecutor.PrepareSource` returns the
source unchanged; `forkJoinExecutor.PrepareSource` wraps it via
`newLockedSource`. -/
def PrepareSource : ExecutorKind → RandSource → RandSource
  | .serial, s => s
  | .forkJoin, s => newLockedSource s

/-- Whether a source is the mutex-guarded adapter. -/
def RandSource.isLocked : RandSource → Bool
  | .locked _ => true
  | _ => false

/-- Modelled from the spec: the `NewGenerator` revision that reads
`GeneratorArgs.Executor` is not part of the snapshot (only its benchmarks
and the executors' `PrepareSource` methods are), so the top-level wiring is
taken from the spec's words: when the top-level compile entry point builds
the final generator configuration it calls the configured executor's
`PrepareSource` on the configured random source, before any generation
runs. -/
def prepareConfiguredSource (executor : ExecutorKind) (source : RandSource) : RandSource :=
  PrepareSource executor source
/-- `MaxUpperBound`: the number of instances to generate for unbounded
repeat expressions. -/
def MaxUpperBound : Int := 4096

/-- The regexp AST (`regexp/syntax.Regexp`) restricted to the ops the
factory table of `regen.go` handles: each constructor carries exactly the
fields the corresponding factory reads (`Rune` for literals and char
classes, `Sub` for composite ops, `Min`/`Max` for bounded repeat).  The
parser producing these trees is an external collaborator. -/
inductive Regexp where
  | emptyMatch
  | literal (runes : List Int)
  | anyChar
  | anyCharNotNl
  | quest (sub : List Regexp)
  | star (sub : List Regexp)
  | plus (sub : List Regexp)
  | repeat_ (min max : Int) (sub : List Regexp)
  | charClass (runes : List Int)
  | concat (sub : List Regexp)
  | alternate (sub : List Regexp)
  | capture (sub : List Regexp)
  | beginLine
  | endLine
  | beginText
  | endText
  | wordBoundary
  | noWordBoundary

/-- Compile-time failures.  `malformedSub` is the recoverable
`generatorError` value returned by `enforceSingleSub`; `fatalPanic` marks a
Go panic raised while compiling (char-class construction on malformed range
pairs); `unsupportedFlag` and `parseFailed` are the facade's error
returns. -/
inductive CompileError where
  | malformedSub
  | unsupportedFlag
  | parseFailed
  | fatalPanic
deriving DecidableEq, Repr

/-- A compiled generator node: the closure tree the factories of `regen.go`
build.  Each constructor stores exactly what the corresponding closure
captures (the literal runes, the built char class, the child generators,
the resolved repeat bounds). -/
inductive Gen where
  | noop
  | empty
  | literal (runes : List Int)
  | anyChar
  | anyCharNotNl
  | charClass (c : util.CharClass)
  | concat (gens : List Gen)
  | alternate (gens : List Gen)
  | repeat_ (g : Gen) (min max : Int)

mutual

/-- `newGenerator`'s dispatch over the factory table of `regen.go`, one arm
per registered op (assertion ops compile to the `noop` generator).  The
`Simplify` preprocessing step belongs to the external `regexp/syntax`
package, so `compile` receives the (already simplified) AST. -/
def compile : Regexp → Except CompileError Gen
  | .emptyMatch => .ok .empty
  | .literal runes => .ok (.literal runes)
  | .anyChar => .ok .anyChar
  | .anyCharNotNl => .ok .anyCharNotNl
  | .quest subs => createRepeatingGenerator subs 0 1
  | .star subs => createRepeatingGenerator subs 0 (-1)
  | .plus subs => createRepeatingGenerator subs 1 (-1)
  | .repeat_ min max subs => createRepeatingGenerator subs min max
  | .charClass runes =>
      match util.ParseCharClass runes with
      | some c => .ok (.charClass c)
      | none => .error .fatalPanic
  | .concat subs =>
      match compileList subs with
      | .ok gens => .ok (.concat gens)
      | .error e => .error e
  | .alternate subs =>
      match compileList subs with
      | .ok gens => .ok (.alternate gens)
      | .error e => .error e
  | .capture subs =>
      match subs with
      | [sub] => compile sub
      | _ => .error .malformedSub
  | .beginLine => .ok .noop
  | .endLine => .ok .noop
  | .beginText => .ok .noop
  | .endText => .ok .noop
  | .wordBoundary => .ok .noop
  | .noWordBoundary => .ok .noop
termination_by r => sizeOf r
decreasing_by
  all_goals simp
  all_goals try omega

/-- `newGenerators`: compile every child in order; the first error aborts. -/
def compileList : List Regexp → Except CompileError (List Gen)
  | [] => .ok []
  | r :: rest =>
      match compile r with
      | .error e => .error e
      | .ok g =>
          match compileList rest with
          | .error e => .error e
          | .ok gs => .ok (g :: gs)
termination_by rs => sizeOf rs
decreasing_by
  all_goals simp
  all_goals try omega

/-- `createRepeatingGenerator`: `enforceSingleSub` rejects a child count
other than 1 with a recoverable error; the sub-expression is compiled, and
an unbounded upper bound (`max < 0`) is resolved to `MaxUpperBound` here,
once, at compile time — the built node stores the resolved bound. -/
def createRepeatingGenerator (subs : List Regexp) (min max : Int) :
    Except CompileError Gen :=
  match subs with
  | [sub] =>
      match compile sub with
      | .error e => .error e
      | .ok g => .ok (.repeat_ g min (if max < 0 then MaxUpperBound else max))
  | _ => .error .malformedSub
termination_by sizeOf subs
decreasing_by
  · simp
    try omega

end

mutual

/-- `Generate()` on a compiled node: the closure bodies of the factories in
`regen.go`.  A Go panic during generation is `none`. -/
def generate : Gen → RngState → Option (Str × RngState)
  | .noop, r => some ((∅ : Str), r)
  | .empty, r => some ((∅ : Str), r)
  | .literal runes, r => some (RunesToString runes, r)
  | .anyChar, r =>
      let (v, r') := rngInt31 r
      some (RunesToString [(v : Int)], r')
  | .anyCharNotNl, r =>
      let (v, r') := rngInt31 r
      some (RunesToString [(v : Int)], r')
  | .charClass c, r =>
      match rngIntn r c.TotalSize with
      | none => none
      | some (i, r') =>
          match c.GetRuneAt (util.Abs (i : Int)) with
          | some ch => some (RunesToString [ch], r')
          | none => none
  | .concat gens, r => generateSeq gens r
  | .alternate gens, r =>
      match rngIntn r (gens.length : Int) with
      | none => none
      | some (i, r') =>
          match h : gens[i]? with
          | some g => generate g r'
          | none => none
  | .repeat_ g min max, r =>
      match rngIntn r (max - min + 1) with
      | none => none
      | some (u, r') => generateRep g (min + (u : Int)).toNat r'
termination_by g _ => (sizeOf g, 0)
decreasing_by
  · apply Prod.Lex.left
    simp
    try omega
  · apply Prod.Lex.left
    have := List.sizeOf_lt_of_mem (List.getElem?_mem h)
    simp
    try omega
  · apply Prod.Lex.left
    simp
    try omega

/-- The buffer loop of `opConcat`: run each child in order, appending its
fragment. -/
def generateSeq : List Gen → RngState → Option (Str × RngState)
  | [], r => some ((∅ : Str), r)
  | g :: rest, r =>
      match generate g r with
      | none => none
      | some (s, r') =>
          match generateSeq rest r' with
          | none => none
          | some (s2, r'') => some (s ++ s2, r'')
termination_by gens _ => (sizeOf gens, 0)
decreasing_by
  · apply Prod.Lex.left
    simp
    try omega
  · apply Prod.Lex.left
    simp
    try omega

/-- The counting loop of `createRepeatingGenerator`'s closure: invoke the
child generator `n` times, concatenating the fragments in invocation
order. -/
def generateRep : Gen → Nat → RngState → Option (Str × RngState)
  | _, 0, r => some ((∅ : Str), r)
  | g, n + 1, r =>
      match generate g r with
      | none => none
      | some (s, r') =>
          match generateRep g n r' with
          | none => none
          | some (s2, r'') => some (s ++ s2, r'')
termination_by g n _ => (sizeOf g, n + 1)
decreasing_by
  · apply Prod.Lex.right
    omega
  · apply Prod.Lex.right
    omega

end

/-- The compile-time resolution of a repeat node's upper bound: an
unbounded (`max < 0`) bound becomes `MaxUpperBound`. -/
def resolveMax (max : Int) : Int := if max < 0 then MaxUpperBound else max

/-- Side conditions on the (parser-supplied) AST under which generation is
panic-free.  The external parser guarantees all of them except the first:
it can produce an empty character class (e.g. for a negated class covering
every codepoint). -/
def regexpWF : Regexp → Bool
  | .charClass runes =>
      match util.ParseCharClass runes with
      | some c => decide (0 < c.TotalSize)
      | none => true
  | .alternate subs => !subs.isEmpty && subs.attach.all (fun x => regexpWF x.1)
  | .concat subs => subs.attach.all (fun x => regexpWF x.1)
  | .capture subs => subs.attach.all (fun x => regexpWF x.1)
  | .quest subs => subs.attach.all (fun x => regexpWF x.1)
  | .star subs => subs.attach.all (fun x => regexpWF x.1)
  | .plus subs => subs.attach.all (fun x => regexpWF x.1)
  | .repeat_ min max subs =>
      decide (min ≤ resolveMax max) && subs.attach.all (fun x => regexpWF x.1)
  | _ => true
termination_by r => sizeOf r
decreasing_by
  all_goals
    have := List.sizeOf_lt_of_mem x.2
    simp
    try omega

/-- The invariants a compiled tree satisfies when generation cannot
panic. -/
def genWF : Gen → Bool
  | .charClass c =>
      decide (0 < c.TotalSize) && decide (c.TotalSize = util.sumSizes c.Ranges) &&
        c.Ranges.all (fun rg => decide (1 ≤ rg.Start) && decide (1 ≤ rg.Size))
  | .alternate gens => !gens.isEmpty && gens.attach.all (fun x => genWF x.1)
  | .concat gens => gens.attach.all (fun x => genWF x.1)
  | .repeat_ g min max => decide (min ≤ max) && genWF g
  | _ => true
termination_by g => sizeOf g
decreasing_by
  all_goals try have hmem := List.sizeOf_lt_of_mem x.2
  all_goals simp
  all_goals try omega
/-- `regexp/syntax` flag bits read by the facade: `syntax.UnicodeGroups`
and `syntax.Perl` (= `ClassNL | OneLine | PerlX | UnicodeGroups`). -/
def UnicodeGroupsFlag : Nat := 128

/-- `syntax.Perl`. -/
def PerlFlag : Nat := 212

/-- The mutable cursor of a caller-supplied `rand.Source`: the values it
will return, and how many have been drawn.  The source object's identity is
its stream; a draw advances only the cursor. -/
structure SourceHandle where
  stream : Nat → Int
  pos : Nat

/-- `Int63()` on the supplied source: returns the next value and advances
the cursor by one. -/
def SourceHandle.Int63 (s : SourceHandle) : Int × SourceHandle :=
  (s.stream s.pos, { s with pos := s.pos + 1 })

/-- `GeneratorArgs` of the package-documentation revision (part_000): the
caller-supplied `RngSource` and parser `Flags`, plus the unexported `rng`
field the facade fills in.  The xorshift-backed `rand.Rand` stored in `rng`
is modelled by the xorshift state it wraps. -/
structure GeneratorArgs where
  RngSource : Option SourceHandle
  Flags : Nat
  rng : Option xorShift64Source

/-- The tail of `NewGenerator` after the args mutation: reject
`UnicodeGroups` without `Perl`, then run the external parser on the
configured flags, then compile.  In the Go code these returns happen after
`args.rng` has already been assigned, so the outcome is a function of the
flags alone — split out here to reflect exactly that. -/
def newGeneratorOutcome (parse : Nat → Except CompileError Regexp)
    (flags : Nat) : Except CompileError Gen :=
  if flags &&& UnicodeGroupsFlag == UnicodeGroupsFlag &&
      !(flags &&& PerlFlag == PerlFlag) then
    .error .unsupportedFlag
  else
    match parse flags with
    | .error _ => .error .parseFailed
    | .ok ast => compile ast

/-- `NewGenerator` (part_000 revision): nil args are replaced by a fresh
zero value; one seed value is drawn — from `args.RngSource` when supplied,
else from the process-global `rand.Int63()` (passed in as `globalSeed`,
since the global generator is external) — a fresh xorshift source is built
from the raw converted seed (`xorShift64Source(seed)`, no zero coercion on
this path) and a `rand.Rand` over it is stored into `args.rng`; only then
are the flag check, parse and compile performed.  Returns the mutated args
and the outcome. -/
def NewGenerator (parse : Nat → Except CompileError Regexp) (globalSeed : Int)
    (args0 : Option GeneratorArgs) : GeneratorArgs × Except CompileError Gen :=
  let args1 := args0.getD ⟨none, 0, none⟩
  let seed : Int :=
    match args1.RngSource with
    | none => globalSeed
    | some src => src.Int63.1
  let args2 : GeneratorArgs :=
    match args1.RngSource with
    | none => args1
    | some src => { args1 with RngSource := some src.Int63.2 }
  let args3 := { args2 with rng := some ⟨u64ofInt seed⟩ }
  (args3, newGeneratorOutcome parse args3.Flags)

theorem rngIntn_pos {r : RngState} {n : Int} (h : 0 < n) :
    rngIntn r n = some (r.stream r.idx % n.toNat, ⟨r.stream, r.idx + 1⟩) := by
  simp [rngIntn, not_le.mpr h]

theorem rngIntn_lt {r : RngState} {n : Int} {v : Nat} {r' : RngState}
    (h : rngIntn r n = some (v, r')) : v < n.toNat := by
  unfold rngIntn at h
  split at h
  · exact absurd h (by simp)
  · rename_i hn
    have hn' : 0 < n.toNat := by omega
    simp only [Option.some.injEq, Prod.mk.injEq] at h
    obtain ⟨hv, -⟩ := h
    exact hv ▸ Nat.mod_lt _ hn'

namespace util

theorem NewCharClassRange_some {s e : Int} {r : CharClassRange}
    (h : NewCharClassRange s e = some r) :
    1 ≤ r.Start ∧ 1 ≤ r.Size ∧ r.Start = s ∧ r.Size = e - s + 1 := by
  unfold NewCharClassRange at h
  split at h
  · exact absurd h (by simp)
  · split at h
    · exact absurd h (by simp)
    · simp only [Option.some.injEq] at h
      subst h
      refine ⟨?_, ?_, rfl, rfl⟩
      · show (1 : Int) ≤ s
        omega
      · show (1 : Int) ≤ e - s + 1
        omega

theorem NewCharClassRange_none {s e : Int} (h : e - s + 1 < 1) :
    NewCharClassRange s e = none := by
  unfold NewCharClassRange
  rw [if_pos h]
  split <;> rfl

theorem parseRanges_mem {runes : List Int} {rs : List CharClassRange}
    (h : parseRanges runes = some rs) :
    ∀ r ∈ rs, 1 ≤ r.Start ∧ 1 ≤ r.Size := by
  induction runes using parseRanges.induct generalizing rs with
  | case1 start end_ rest ih =>
    simp only [parseRanges, Option.bind_eq_bind, Option.bind_eq_some] at h
    obtain ⟨r0, hr0, rs', hrs', hcons⟩ := h
    simp only [Option.some.injEq] at hcons
    subst hcons
    intro r hr
    rcases List.mem_cons.mp hr with hEq | hTail
    · subst hEq
      obtain ⟨h1, h2, -, -⟩ := NewCharClassRange_some hr0
      exact ⟨h1, h2⟩
    · exact ih hrs' r hTail
  | case2 runes h2 =>
    rcases runes with - | ⟨a, - | ⟨b, rest⟩⟩
    · simp only [parseRanges, Option.some.injEq] at h
      subst h
      intro r hr
      exact absurd hr (List.not_mem_nil r)
    · simp only [parseRanges, Option.some.injEq] at h
      subst h
      intro r hr
      exact absurd hr (List.not_mem_nil r)
    · exact absurd rfl (h2 a b rest)

theorem ParseCharClass_some {runes : List Int} {c : CharClass}
    (h : ParseCharClass runes = some c) :
    parseRanges runes = some c.Ranges ∧ c.TotalSize = sumSizes c.Ranges := by
  unfold ParseCharClass at h
  simp only [Option.bind_eq_bind, Option.bind_eq_some, Option.some.injEq] at h
  obtain ⟨rs, hrs, hc⟩ := h
  subst hc
  exact ⟨hrs, rfl⟩

theorem ParseCharClass_ranges_ok {runes : List Int} {c : CharClass}
    (h : ParseCharClass runes = some c) :
    ∀ r ∈ c.Ranges, 1 ≤ r.Start ∧ 1 ≤ r.Size :=
  parseRanges_mem (ParseCharClass_some h).1

theorem sumSizes_nil : sumSizes [] = 0 := rfl

theorem sumSizes_cons (r : CharClassRange) (rs : List CharClassRange) :
    sumSizes (r :: rs) = r.Size + sumSizes rs := by
  simp [sumSizes]

theorem getRuneAtRanges_total {rs : List CharClassRange}
    (hok : ∀ r ∈ rs, 1 ≤ r.Start ∧ 1 ≤ r.Size) :
    ∀ i : Int, 0 ≤ i → i < sumSizes rs →
      ∃ ch, getRuneAtRanges rs i = some ch ∧ 1 ≤ ch := by
  induction rs with
  | nil =>
    intro i h0 hlt
    rw [sumSizes_nil] at hlt
    omega
  | cons r rest ih =>
    intro i h0 hlt
    rw [sumSizes_cons] at hlt
    obtain ⟨hstart, -⟩ := hok r (List.mem_cons_self r rest)
    by_cases hi : i < r.Size
    · exact ⟨r.Start + i, by simp [getRuneAtRanges, hi], by omega⟩
    · have hok' : ∀ r ∈ rest, 1 ≤ r.Start ∧ 1 ≤ r.Size :=
        fun r hr => hok r (List.mem_cons_of_mem _ hr)
      obtain ⟨ch, hch, hch1⟩ := ih hok' (i - r.Size) (by omega) (by omega)
      exact ⟨ch, by simp [getRuneAtRanges, hi, hch], hch1⟩

theorem classElems_cons (r : CharClassRange) (rs : List CharClassRange) :
    classElems (r :: rs) = rangeElems r ++ classElems rs := by
  simp [classElems]

theorem rangeElems_length (r : CharClassRange) :
    (rangeElems r).length = r.Size.toNat := by
  rw [rangeElems, List.length_map, List.length_range]

theorem getRuneAtRanges_elems {rs : List CharClassRange}
    (hsz : ∀ r ∈ rs, 0 ≤ r.Size) :
    ∀ i : Int, 0 ≤ i → getRuneAtRanges rs i = (classElems rs)[i.toNat]? := by
  induction rs with
  | nil =>
    intro i h0
    simp [getRuneAtRanges, classElems]
  | cons r rest ih =>
    intro i h0
    have hr0 : 0 ≤ r.Size := hsz r (List.mem_cons_self r rest)
    rw [classElems_cons]
    by_cases hi : i < r.Size
    · have hlen : i.toNat < (rangeElems r).length := by
        rw [rangeElems_length]; omega
      rw [getRuneAtRanges, if_pos hi, List.getElem?_append, if_pos hlen]
      simp only [rangeElems, List.getElem?_map, List.getElem?_range (by omega : i.toNat < r.Size.toNat)]
      simp [Int.toNat_of_nonneg h0]
    · have hlen : (rangeElems r).length ≤ i.toNat := by
        rw [rangeElems_length]; omega
      rw [getRuneAtRanges, if_neg hi, List.getElem?_append_right hlen,
        ih (fun r hr => hsz r (List.mem_cons_of_mem _ hr)) (i - r.Size) (by omega)]
      congr 1
      rw [rangeElems_length]
      omega

end util

theorem writeSlot_length (results slots : List Str) (i : Nat) :
    (writeSlot results slots i).length = slots.length :=
  List.length_set ..

theorem foldl_writeSlot_getElem (results : List Str) (order : List Nat)
    (slots : List Str) (j : Nat) :
    (order.foldl (writeSlot results) slots)[j]? =
      if j ∈ order ∧ j < slots.length then some (results.getD j ∅) else slots[j]? := by
  induction order generalizing slots with
  | nil => simp
  | cons i rest ih =>
    rw [List.foldl_cons, ih, writeSlot_length]
    by_cases h2 : j < slots.length
    · by_cases h1 : j ∈ rest
      · rw [if_pos ⟨h1, h2⟩, if_pos ⟨List.mem_cons_of_mem i h1, h2⟩]
      · rw [if_neg (fun hc => h1 hc.1)]
        by_cases h3 : i = j
        · subst h3
          rw [writeSlot, List.getElem?_set_self h2, if_pos ⟨List.mem_cons_self i rest, h2⟩]
        · rw [writeSlot, List.getElem?_set_ne h3,
            if_neg (fun hc => (List.mem_cons.mp hc.1).elim (fun he => h3 he.symm) h1)]
    · rw [if_neg (fun hc => h2 hc.2), if_neg (fun hc => h2 hc.2), writeSlot,
        List.getElem?_eq_none (by rw [List.length_set]; exact le_of_not_lt h2),
        List.getElem?_eq_none (le_of_not_lt h2)]

theorem forkJoin_slots (results : List Str) (order : List Nat)
    (h : order.Perm (List.range results.length)) :
    order.foldl (writeSlot results) (List.replicate results.length ∅) = results := by
  apply List.ext_getElem?
  intro j
  rw [foldl_writeSlot_getElem, List.length_replicate]
  by_cases hj : j < results.length
  · have hmem : j ∈ order := h.mem_iff.mpr (List.mem_range.mpr hj)
    rw [if_pos ⟨hmem, hj⟩, List.getD_eq_getElem?_getD, List.getElem?_eq_getElem hj]
    rfl
  · rw [if_neg (fun hc => hj hc.2), List.getElem?_replicate, if_neg hj, eq_comm]
    exact List.getElem?_eq_none (le_of_not_lt hj)

/-- **C6**: with each child generator producing a fixed per-child result,
`forkJoinExecutor.Execute` returns exactly the string `serialExecutor.Execute`
returns, for every completion order of the forked tasks (any permutation of
the child indices): each task writes only the slot of its original position
and the slots are joined in index order, so the output depends only on
position, never on completion order. -/
theorem forkJoin_execute_eq_serial (results : List Str) (order : List Nat)
    (h : order.Perm (List.range results.length)) :
    forkJoinExecute results order = serialExecute results := by
  unfold forkJoinExecute serialExecute
  rw [forkJoin_slots results order h]

theorem forkJoin_execute_eq_serial_witness :
    ([2, 0, 1] : List Nat).Perm (List.range ([[72], [105], [33]] : List Str).length) ∧
    forkJoinExecute [[72], [105], [33]] [2, 0, 1] = serialExecute [[72], [105], [33]] :=
  ⟨by decide, forkJoin_execute_eq_serial [[72], [105], [33]] [2, 0, 1] (by decide)⟩

/-- **C7**: `forkJoinExecutor.PrepareSource` wraps the configured source in
the mutex-guarded adapter, `serialExecutor.PrepareSource` returns it
unchanged, and the configured source prepared by the top-level entry point
(modelled from the spec) is the locked adapter exactly when the fork-join
strategy is configured. -/
theorem prepared_source_locked_iff_forkjoin (e : ExecutorKind) (s : RandSource)
    (h : s.isLocked = false) :
    PrepareSource .forkJoin s = newLockedSource s ∧
    PrepareSource .serial s = s ∧
    ((prepareConfiguredSource e s).isLocked = true ↔ e = .forkJoin) := by
  refine ⟨rfl, rfl, ?_⟩
  cases e
  · simp only [prepareConfiguredSource, PrepareSource, h]
    simp
  · simp [prepareConfiguredSource, PrepareSource, newLockedSource, RandSource.isLocked]

theorem prepared_source_locked_iff_forkjoin_witness :
    (RandSource.xorShift ⟨1⟩).isLocked = false ∧
    ((prepareConfiguredSource .serial (.xorShift ⟨1⟩)).isLocked = true ↔
      ExecutorKind.serial = .forkJoin) :=
  ⟨rfl, (prepared_source_locked_iff_forkjoin .serial (.xorShift ⟨1⟩) rfl).2.2⟩

/-- **C4 counterexample**: the claim says the zero-seed coercion happens on
every path that sets the xorshift state, including re-seeding via `Seed`.
It does not: `Seed(0)` stores state 0, and the next 999 `Int63` draws are
then all zero — the degenerate all-zero stream the claim rules out. -/
theorem int63Outputs_zero_state (n : Nat) :
    (int63Outputs ⟨0⟩ n).all (fun v => v == 0) = true := by
  induction n with
  | zero => rfl
  | succ n ih => simpa [int63Outputs, xorShift64Source.Int63, U64] using ih

theorem zero_seed_via_seed_method_degenerates :
    ((newXorShift64Source 1).Seed 0).state = 0 ∧
    (int63Outputs ((newXorShift64Source 1).Seed 0) 999).all (fun v => v == 0) = true := by
  constructor
  · decide
  · have h : (newXorShift64Source 1).Seed 0 = (⟨0⟩ : xorShift64Source) := by decide
    rw [h]
    exact int63Outputs_zero_state 999

set_option maxRecDepth 4000 in
/-- **C4 (amended)**: only construction coerces: `newXorShift64Source 0`
behaves exactly as seed 1 (state 1), and among the first 999 `Int63` draws
of a source constructed with seed 0 at least one value is nonzero (already
the first draw is). -/
theorem zero_seed_coerced_at_construction :
    newXorShift64Source 0 = newXorShift64Source 1 ∧
    (newXorShift64Source 0).state = 1 ∧
    (int63Outputs (newXorShift64Source 0) 999).any (fun v => v != 0) = true := by
  refine ⟨by decide, by decide, by decide⟩

/-- **C3**: `ParseCharClass` clamps a zero start codepoint to 1 before the
range is constructed (parsing a pair starting at 0 is identical to parsing
it starting at 1), every stored range starts at a codepoint ≥ 1, and every
indexed lookup with `0 ≤ i < TotalSize` on a built class succeeds and yields
a codepoint ≥ 1 — the null codepoint is never generated, even for a negated
class whose first parser-supplied range nominally starts at 0. -/
theorem charclass_never_null (runes : List Int) (c : util.CharClass)
    (h : util.ParseCharClass runes = some c) :
    (∀ (e : Int) (rest : List Int),
      util.parseRanges (0 :: e :: rest) = util.parseRanges (1 :: e :: rest)) ∧
    (∀ r ∈ c.Ranges, 1 ≤ r.Start) ∧
    (∀ i : Int, 0 ≤ i → i < c.TotalSize → ∃ ch, c.GetRuneAt i = some ch ∧ 1 ≤ ch) := by
  obtain ⟨hranges, htotal⟩ := util.ParseCharClass_some h
  have hok := util.parseRanges_mem hranges
  refine ⟨?_, fun r hr => (hok r hr).1, ?_⟩
  · intro e rest
    simp [util.parseRanges]
  · intro i h0 hlt
    rw [htotal] at hlt
    exact util.getRuneAtRanges_total hok i h0 hlt

theorem charclass_never_null_witness :
    ∃ ch, util.CharClass.GetRuneAt ⟨[⟨1, 96⟩, ⟨98, 1114014⟩], 1114110⟩ 100 = some ch ∧ 1 ≤ ch :=
  (charclass_never_null [0, 96, 98, 1114111] ⟨[⟨1, 96⟩, ⟨98, 1114014⟩], 1114110⟩
    (by decide)).2.2 100 (by decide) (by decide)

/-- **C5**: on every class `ParseCharClass` builds, `TotalSize` equals the
sum of the range sizes, and the linear scan `GetRuneAt i` returns exactly
the `i`-th codepoint of the class viewed as the concatenation of its ranges
in stored order — for every `i ≥ 0`, so in particular on all of
`[0, TotalSize)` (past the end both views agree on failure). -/
theorem getRuneAt_is_concatenation_index (runes : List Int) (c : util.CharClass)
    (h : util.ParseCharClass runes = some c) :
    c.TotalSize = util.sumSizes c.Ranges ∧
    ∀ i : Int, 0 ≤ i → c.GetRuneAt i = (util.classElems c.Ranges)[i.toNat]? := by
  obtain ⟨hranges, htotal⟩ := util.ParseCharClass_some h
  have hok := util.parseRanges_mem hranges
  refine ⟨htotal, fun i h0 => ?_⟩
  exact util.getRuneAtRanges_elems
    (fun r hr => le_of_lt (lt_of_lt_of_le Int.zero_lt_one (hok r hr).2)) i h0

theorem getRuneAt_is_concatenation_index_witness :
    util.CharClass.GetRuneAt ⟨[⟨97, 3⟩], 3⟩ 1 = (util.classElems [⟨97, 3⟩])[(1 : Int).toNat]? :=
  (getRuneAt_is_concatenation_index [97, 99] ⟨[⟨97, 3⟩], 3⟩ (by decide)).2 1 (by decide)

/-- **C8**: a computed size `end - start + 1 < 1` is a fatal
construction-time failure of `NewCharClassRange` — a Go panic, modelled as
`none`, distinct from the recoverable `Except.error` values compilation
returns — a successfully constructed range always has size ≥ 1, and
`ParseCharClass` never silently stores a range of size < 1. -/
theorem small_range_is_fatal (s e : Int) :
    (e - s + 1 < 1 → util.NewCharClassRange s e = none) ∧
    (∀ r, util.NewCharClassRange s e = some r → 1 ≤ r.Size) ∧
    (∀ (runes : List Int) (c : util.CharClass),
      util.ParseCharClass runes = some c → ∀ r ∈ c.Ranges, 1 ≤ r.Size) := by
  refine ⟨util.NewCharClassRange_none, fun r hr => (util.NewCharClassRange_some hr).2.1, ?_⟩
  intro runes c h r hr
  exact (util.ParseCharClass_ranges_ok h r hr).2

theorem small_range_is_fatal_witness :
    util.NewCharClassRange 5 3 = none :=
  (small_range_is_fatal 5 3).1 (by decide)


theorem attach_all_mem {α : Type} [SizeOf α] {l : List α} {p : α → Bool}
    (h : l.attach.all (fun x => p x.1) = true) : ∀ a ∈ l, p a = true := by
  simp [List.all_eq_true] at h
  exact h

theorem attach_all_of_mem {α : Type} [SizeOf α] {l : List α} {p : α → Bool}
    (h : ∀ a ∈ l, p a = true) : l.attach.all (fun x => p x.1) = true := by
  simp [List.all_eq_true]
  exact h

theorem compileList_length {rs : List Regexp} {gs : List Gen}
    (h : compileList rs = .ok gs) : gs.length = rs.length := by
  induction rs generalizing gs with
  | nil =>
    simp only [compileList] at h
    cases h
    rfl
  | cons r rest ih =>
    simp only [compileList] at h
    cases hcr : compile r with
    | error e => rw [hcr] at h; exact absurd h (by simp)
    | ok g0 =>
      rw [hcr] at h
      cases hcl : compileList rest with
      | error e => rw [hcl] at h; exact absurd h (by simp)
      | ok gs0 =>
        rw [hcl] at h
        cases h
        simp [ih hcl]

theorem compile_wf_aux : ∀ n : Nat,
    (∀ r : Regexp, sizeOf r ≤ n → ∀ g, compile r = .ok g →
      regexpWF r = true → genWF g = true) ∧
    (∀ rs : List Regexp, sizeOf rs ≤ n → ∀ gs, compileList rs = .ok gs →
      (∀ r ∈ rs, regexpWF r = true) → ∀ g ∈ gs, genWF g = true) ∧
    (∀ (subs : List Regexp) (min max : Int), sizeOf subs ≤ n → ∀ g,
      createRepeatingGenerator subs min max = .ok g →
      min ≤ resolveMax max → (∀ r ∈ subs, regexpWF r = true) →
      genWF g = true) := by
  intro n
  induction n using Nat.strong_induction_on with
  | _ n ih =>
    refine ⟨?_, ?_, ?_⟩
    · intro r hsz g hc hwf
      cases r with
      | emptyMatch => simp only [compile] at hc; cases hc; simp [genWF]
      | literal runes => simp only [compile] at hc; cases hc; simp [genWF]
      | anyChar => simp only [compile] at hc; cases hc; simp [genWF]
      | anyCharNotNl => simp only [compile] at hc; cases hc; simp [genWF]
      | beginLine => simp only [compile] at hc; cases hc; simp [genWF]
      | endLine => simp only [compile] at hc; cases hc; simp [genWF]
      | beginText => simp only [compile] at hc; cases hc; simp [genWF]
      | endText => simp only [compile] at hc; cases hc; simp [genWF]
      | wordBoundary => simp only [compile] at hc; cases hc; simp [genWF]
      | noWordBoundary => simp only [compile] at hc; cases hc; simp [genWF]
      | quest subs =>
        simp only [compile] at hc
        simp only [regexpWF] at hwf
        have hlt : sizeOf subs < n := by simp at hsz; omega
        exact (ih (n - 1) (by omega)).2.2 subs 0 1 (by omega) g hc (by decide)
          (attach_all_mem hwf)
      | star subs =>
        simp only [compile] at hc
        simp only [regexpWF] at hwf
        have hlt : sizeOf subs < n := by simp at hsz; omega
        exact (ih (n - 1) (by omega)).2.2 subs 0 (-1) (by omega) g hc (by decide)
          (attach_all_mem hwf)
      | plus subs =>
        simp only [compile] at hc
        simp only [regexpWF] at hwf
        have hlt : sizeOf subs < n := by simp at hsz; omega
        exact (ih (n - 1) (by omega)).2.2 subs 1 (-1) (by omega) g hc (by decide)
          (attach_all_mem hwf)
      | repeat_ min max subs =>
        simp only [compile] at hc
        simp only [regexpWF, Bool.and_eq_true, decide_eq_true_eq] at hwf
        have hlt : sizeOf subs < n := by simp at hsz; omega
        exact (ih (n - 1) (by omega)).2.2 subs min max (by omega) g hc hwf.1
          (attach_all_mem hwf.2)
      | charClass runes =>
        simp only [compile] at hc
        simp only [regexpWF] at hwf
        cases hp : util.ParseCharClass runes with
        | none => rw [hp] at hc; exact absurd hc (by simp)
        | some c =>
          rw [hp] at hc
          cases hc
          rw [hp] at hwf
          simp only [decide_eq_true_eq] at hwf
          have hsum := (util.ParseCharClass_some hp).2
          have hok := util.ParseCharClass_ranges_ok hp
          simp only [genWF, Bool.and_eq_true, decide_eq_true_eq, List.all_eq_true]
          exact ⟨⟨hwf, hsum⟩, fun rg hrg => by
            obtain ⟨h1, h2⟩ := hok rg hrg
            simp [h1, h2]⟩
      | concat subs =>
        simp only [compile] at hc
        simp only [regexpWF] at hwf
        cases hcl : compileList subs with
        | error e => rw [hcl] at hc; exact absurd hc (by simp)
        | ok gens =>
          rw [hcl] at hc
          cases hc
          have hlt : sizeOf subs < n := by simp at hsz; omega
          have hall := (ih (n - 1) (by omega)).2.1 subs (by omega) gens hcl
            (attach_all_mem hwf)
          simp only [genWF]
          exact attach_all_of_mem hall
      | alternate subs =>
        simp only [compile] at hc
        simp only [regexpWF, Bool.and_eq_true] at hwf
        cases hcl : compileList subs with
        | error e => rw [hcl] at hc; exact absurd hc (by simp)
        | ok gens =>
          rw [hcl] at hc
          cases hc
          have hlt : sizeOf subs < n := by simp at hsz; omega
          have hall := (ih (n - 1) (by omega)).2.1 subs (by omega) gens hcl
            (attach_all_mem hwf.2)
          have hlen := compileList_length hcl
          simp only [genWF, Bool.and_eq_true]
          have hne := hwf.1
          refine ⟨?_, attach_all_of_mem hall⟩
          cases gens with
          | nil =>
            cases subs with
            | nil => exact absurd hne (by simp)
            | cons a as => exact absurd hlen (by simp)
          | cons g0 gs0 => simp
      | capture subs =>
        simp only [regexpWF] at hwf
        cases subs with
        | nil => simp only [compile] at hc; exact absurd hc (by simp)
        | cons sub rest =>
          cases rest with
          | nil =>
            simp only [compile] at hc
            have hlt : sizeOf sub < n := by simp at hsz; omega
            exact (ih (n - 1) (by omega)).1 sub (by omega) g hc
              (attach_all_mem hwf sub (by simp))
          | cons b c => simp only [compile] at hc; exact absurd hc (by simp)
    · intro rs hsz gs hcl hall g hg
      cases rs with
      | nil =>
        simp only [compileList] at hcl
        cases hcl
        exact absurd hg (List.not_mem_nil g)
      | cons r rest =>
        simp only [compileList] at hcl
        cases hcr : compile r with
        | error e => rw [hcr] at hcl; exact absurd hcl (by simp)
        | ok g0 =>
          rw [hcr] at hcl
          cases hcrest : compileList rest with
          | error e => rw [hcrest] at hcl; exact absurd hcl (by simp)
          | ok gs0 =>
            rw [hcrest] at hcl
            cases hcl
            have hszr : sizeOf r < n := by simp at hsz; omega
            have hszrest : sizeOf rest < n := by simp at hsz; omega
            rcases List.mem_cons.mp hg with hEq | hTail
            · subst hEq
              exact (ih (n - 1) (by omega)).1 r (by omega) g hcr
                (hall r (List.mem_cons_self r rest))
            · exact (ih (n - 1) (by omega)).2.1 rest (by omega) gs0 hcrest
                (fun r' hr' => hall r' (List.mem_cons_of_mem _ hr')) g hTail
    · intro subs min max hsz g hc hle hall
      cases subs with
      | nil => exact absurd hc (by simp [createRepeatingGenerator])
      | cons sub rest =>
        cases rest with
        | nil =>
          simp only [createRepeatingGenerator] at hc
          cases hcs : compile sub with
          | error e => rw [hcs] at hc; exact absurd hc (by simp)
          | ok g0 =>
            rw [hcs] at hc
            cases hc
            have hszs : sizeOf sub < n := by simp at hsz; omega
            have hg0 := (ih (n - 1) (by omega)).1 sub (by omega) g0 hcs
              (hall sub (by simp))
            simp only [genWF, Bool.and_eq_true, decide_eq_true_eq]
            refine ⟨?_, hg0⟩
            simpa [resolveMax] using hle
        | cons b c => exact absurd hc (by simp [createRepeatingGenerator])

theorem generateSeq_total {gens : List Gen}
    (hall : ∀ g ∈ gens, ∀ r, (generate g r).isSome = true) :
    ∀ r, (generateSeq gens r).isSome = true := by
  induction gens with
  | nil => intro r; simp [generateSeq]
  | cons g rest ih =>
    intro r
    simp only [generateSeq]
    cases hgen : generate g r with
    | none =>
      have := hall g (List.mem_cons_self g rest) r
      rw [hgen] at this
      simp at this
    | some p =>
      obtain ⟨s, r'⟩ := p
      dsimp only
      cases hseq : generateSeq rest r' with
      | none =>
        have := ih (fun g' hg' => hall g' (List.mem_cons_of_mem _ hg')) r'
        rw [hseq] at this
        simp at this
      | some q =>
        obtain ⟨s2, r''⟩ := q
        simp

theorem generateRep_total {g : Gen}
    (hg : ∀ r, (generate g r).isSome = true) :
    ∀ (n : Nat) (r : RngState), (generateRep g n r).isSome = true := by
  intro n
  induction n with
  | zero => intro r; simp [generateRep]
  | succ n ih =>
    intro r
    simp only [generateRep]
    cases hgen : generate g r with
    | none =>
      have := hg r
      rw [hgen] at this
      simp at this
    | some p =>
      obtain ⟨s, r'⟩ := p
      dsimp only
      cases hrep : generateRep g n r' with
      | none =>
        have := ih r'
        rw [hrep] at this
        simp at this
      | some q =>
        obtain ⟨s2, r''⟩ := q
        simp

theorem generate_total_aux : ∀ (n : Nat) (g : Gen), sizeOf g ≤ n →
    genWF g = true → ∀ r, (generate g r).isSome = true := by
  intro n
  induction n using Nat.strong_induction_on with
  | _ n ih =>
    intro g hsz hwf r
    cases g with
    | noop => simp [generate]
    | empty => simp [generate]
    | literal runes => simp [generate]
    | anyChar => simp [generate, rngInt31]
    | anyCharNotNl => simp [generate, rngInt31]
    | charClass c =>
      simp only [genWF, Bool.and_eq_true, decide_eq_true_eq, List.all_eq_true] at hwf
      obtain ⟨⟨hpos, hsum⟩, hranges⟩ := hwf
      simp only [generate]
      rw [rngIntn_pos hpos]
      dsimp only
      have hilt : r.stream r.idx % c.TotalSize.toNat < c.TotalSize.toNat :=
        Nat.mod_lt _ (by omega)
      have habs : util.Abs ((r.stream r.idx % c.TotalSize.toNat : Nat) : Int) =
          ((r.stream r.idx % c.TotalSize.toNat : Nat) : Int) := by
        unfold util.Abs
        rw [if_neg (by omega)]
      have hok : ∀ rg ∈ c.Ranges, 1 ≤ rg.Start ∧ 1 ≤ rg.Size := by
        intro rg hrg
        have := hranges rg hrg
        simp only [Bool.and_eq_true, decide_eq_true_eq] at this
        exact this
      obtain ⟨ch, hch, -⟩ := util.getRuneAtRanges_total hok
        ((r.stream r.idx % c.TotalSize.toNat : Nat) : Int) (by omega)
        (by rw [← hsum]; omega)
      rw [habs]
      simp only [util.CharClass.GetRuneAt] at hch ⊢
      rw [hch]
      simp
    | concat gens =>
      simp only [genWF] at hwf
      have hall : ∀ g' ∈ gens, ∀ r', (generate g' r').isSome = true := by
        intro g' hg' r'
        have hslt : sizeOf g' < sizeOf (Gen.concat gens) := by
          have := List.sizeOf_lt_of_mem hg'
          simp
          omega
        exact ih (n - 1) (by omega) g' (by omega) (attach_all_mem hwf g' hg') r'
      rw [show generate (Gen.concat gens) r = generateSeq gens r from by
        simp only [generate]]
      exact generateSeq_total hall r
    | alternate gens =>
      simp only [genWF, Bool.and_eq_true] at hwf
      obtain ⟨hne, hall0⟩ := hwf
      have hlen : 0 < gens.length := by
        cases gens with
        | nil => simp at hne
        | cons a b => simp
      simp only [generate]
      rw [rngIntn_pos (by exact_mod_cast hlen : (0 : Int) < (gens.length : Int))]
      dsimp only
      have ht : ((gens.length : Int)).toNat = gens.length := by omega
      rw [ht]
      have hilt : r.stream r.idx % gens.length < gens.length := Nat.mod_lt _ hlen
      rw [List.getElem?_eq_getElem hilt]
      have hmem := List.getElem_mem hilt
      have hslt : sizeOf gens[r.stream r.idx % gens.length] <
          sizeOf (Gen.alternate gens) := by
        have := List.sizeOf_lt_of_mem hmem
        simp
        omega
      exact ih (n - 1) (by omega) _ (by omega) (attach_all_mem hall0 _ hmem) _
    | repeat_ g0 min max =>
      simp only [genWF, Bool.and_eq_true, decide_eq_true_eq] at hwf
      obtain ⟨hminmax, hwg⟩ := hwf
      simp only [generate]
      rw [rngIntn_pos (by omega : (0 : Int) < max - min + 1)]
      dsimp only
      have hslt : sizeOf g0 < sizeOf (Gen.repeat_ g0 min max) := by
        simp
        omega
      exact generateRep_total
        (fun r' => ih (n - 1) (by omega) g0 (by omega) hwg r') _ _

/-- **C1 counterexample**: the claim as stated is false.  The external
parser can produce an empty character class (the pattern
`[^\x00-\x{10FFFF}]` parses to a char-class op whose complemented range
list is empty).  Compiling it succeeds — `ParseCharClass` builds a class
with no ranges and `TotalSize = 0`, and `opCharClass` performs no
validation — yet every `Generate()` call on the result panics:
`Int31n` is invoked with a non-positive bound. -/
theorem empty_charclass_generation_faults :
    compile (.charClass []) = .ok (.charClass ⟨[], 0⟩) ∧
    generate (.charClass ⟨[], 0⟩) ⟨fun _ => 0, 0⟩ = none := by
  constructor
  · simp only [compile]
    rw [show util.ParseCharClass [] = some ⟨[], 0⟩ from rfl]
  · simp only [generate]
    rw [show rngIntn ⟨fun _ => 0, 0⟩ (util.CharClass.mk [] 0).TotalSize = none from rfl]

/-- **C1 (amended)**: generation is total on every successfully compiled
tree whose AST satisfies the `regexpWF` side conditions — every char-class
node parses to a class of positive `TotalSize` (the condition the
counterexample violates), every alternation has at least one branch, and
every repeat node's `min` does not exceed its resolved `max`; the external
parser guarantees all but the first.  For such a tree every `Generate()`
call terminates normally and returns a string: the `GetRuneAt`
index-out-of-bounds panic and the bounded draws on non-positive bounds are
unreachable. -/
theorem wellformed_generation_never_fails (r : Regexp) (g : Gen)
    (hc : compile r = .ok g) (hwf : regexpWF r = true) (rng : RngState) :
    (generate g rng).isSome = true :=
  generate_total_aux (sizeOf g) g le_rfl
    ((compile_wf_aux (sizeOf r)).1 r le_rfl g hc hwf) rng

theorem wellformed_generation_never_fails_witness :
    (generate (Gen.charClass ⟨[⟨98, 2⟩], 2⟩) ⟨fun _ => 0, 0⟩).isSome = true :=
  wellformed_generation_never_fails (.charClass [98, 99]) (.charClass ⟨[⟨98, 2⟩], 2⟩)
    (by simp only [compile]
        rw [show util.ParseCharClass [98, 99] = some ⟨[⟨98, 2⟩], 2⟩ from rfl])
    (by simp only [regexpWF]
        rw [show util.ParseCharClass [98, 99] = some ⟨[⟨98, 2⟩], 2⟩ from rfl]
        decide)
    ⟨fun _ => 0, 0⟩

/-- **C2**: compiling a repeat node resolves an unbounded (`max < 0`) upper
bound to `MaxUpperBound = 4096` once, at compile time — the compiled node
stores the resolved bound, so every `Generate()` call on it sees the same
max.  Each call then draws `n = min + u`, `u` being the bounded uniform
draw over `[0, max - min + 1)` (model: one raw stream value reduced mod the
interval size), and runs the child-invoking loop `generateRep` exactly `n`
times, concatenating the child's fragments in invocation order.  `n` always
lies in the inclusive interval `[min, max]`; every `t` in that interval —
both endpoints included — is reached by the draw that reads `t - min`;
`min = max` forces the fixed count `min` on every call; and `n = 0`
produces the empty string. -/
theorem repeat_resolves_and_samples (min max : Int) (sub : Regexp) (g : Gen)
    (hsub : compile sub = .ok g) (hle : min ≤ resolveMax max) :
    compile (.repeat_ min max [sub]) = .ok (.repeat_ g min (resolveMax max)) ∧
    (∀ r : RngState,
      generate (.repeat_ g min (resolveMax max)) r =
        generateRep g
          (min + ((r.stream r.idx % (resolveMax max - min + 1).toNat : Nat) : Int)).toNat
          ⟨r.stream, r.idx + 1⟩) ∧
    (∀ r : RngState,
      min ≤ min + ((r.stream r.idx % (resolveMax max - min + 1).toNat : Nat) : Int) ∧
      min + ((r.stream r.idx % (resolveMax max - min + 1).toNat : Nat) : Int) ≤
        resolveMax max) ∧
    (∀ t : Int, min ≤ t → t ≤ resolveMax max → ∀ st : Nat → Nat, ∀ k : Nat,
      st k = (t - min).toNat →
      generate (.repeat_ g min (resolveMax max)) ⟨st, k⟩ =
        generateRep g t.toNat ⟨st, k + 1⟩) ∧
    (min = resolveMax max → ∀ r : RngState,
      generate (.repeat_ g min (resolveMax max)) r =
        generateRep g min.toNat ⟨r.stream, r.idx + 1⟩) ∧
    (∀ r : RngState, generateRep g 0 r = some ((∅ : Str), r)) := by
  have hk : (0 : Int) < resolveMax max - min + 1 := by omega
  have hknat : 0 < (resolveMax max - min + 1).toNat := by omega
  have hgen : ∀ r : RngState,
      generate (.repeat_ g min (resolveMax max)) r =
        generateRep g
          (min + ((r.stream r.idx % (resolveMax max - min + 1).toNat : Nat) : Int)).toNat
          ⟨r.stream, r.idx + 1⟩ := by
    intro r
    simp only [generate]
    rw [rngIntn_pos hk]
  refine ⟨?_, hgen, ?_, ?_, ?_, ?_⟩
  · simp only [compile, createRepeatingGenerator]
    rw [hsub]
    simp [resolveMax]
  · intro r
    have hu : r.stream r.idx % (resolveMax max - min + 1).toNat <
        (resolveMax max - min + 1).toNat := Nat.mod_lt _ hknat
    omega
  · intro t ht1 ht2 st k hst
    rw [hgen ⟨st, k⟩]
    have hlt : (t - min).toNat < (resolveMax max - min + 1).toNat := by omega
    have : st k % (resolveMax max - min + 1).toNat = (t - min).toNat := by
      rw [hst]
      exact Nat.mod_eq_of_lt hlt
    rw [this]
    congr 1
    omega
  · intro heq r
    rw [hgen r]
    have h1 : (resolveMax max - min + 1).toNat = 1 := by omega
    rw [h1, Nat.mod_one]
    simp
  · intro r
    simp [generateRep]

theorem repeat_resolves_and_samples_witness :
    compile (.repeat_ 2 (-1) [.literal [97]]) =
      .ok (.repeat_ (.literal [97]) 2 (resolveMax (-1))) :=
  (repeat_resolves_and_samples 2 (-1) (.literal [97]) (.literal [97])
    (by simp only [compile]) (by decide)).1

/-- **C9**: a capture node with exactly one child compiles to exactly the
child's compiled generator (transparent — no captured-span side effect):
`(abc)`, a capture of the literal `abc`, generates exactly `"abc"`, and
`()`, a capture of an empty match, generates exactly `""`, for every RNG
state; a capture whose child count is not exactly 1 fails with the
recoverable malformed-capture (`enforceSingleSub`) compile error rather
than succeeding. -/
theorem capture_transparency (sub : Regexp) (subs : List Regexp)
    (hn : subs.length ≠ 1) :
    compile (.capture [sub]) = compile sub ∧
    compile (.capture [.literal [97, 98, 99]]) = .ok (.literal [97, 98, 99]) ∧
    (∀ r : RngState,
      generate (.literal [97, 98, 99]) r = some (RunesToString [97, 98, 99], r)) ∧
    compile (.capture [.emptyMatch]) = .ok .empty ∧
    (∀ r : RngState, generate .empty r = some ((∅ : Str), r)) ∧
    compile (.capture subs) = .error .malformedSub := by
  refine ⟨by simp only [compile], by simp only [compile],
    fun r => by simp only [generate], by simp only [compile],
    fun r => by simp only [generate], ?_⟩
  match subs, hn with
  | [], _ => simp only [compile]
  | [x], hn => exact absurd rfl hn
  | x :: y :: rest, _ => simp only [compile]

theorem capture_transparency_witness :
    compile (.capture ([] : List Regexp)) = .error .malformedSub :=
  (capture_transparency .anyChar [] (by decide)).2.2.2.2.2

/-- **C10**: called with a non-nil `GeneratorArgs` whose `RngSource` is
supplied, `NewGenerator` mutates the caller's struct: it draws exactly one
value from the supplied source (the source object — its stream — is
otherwise untouched, and the compile outcome does not depend on it at all,
so the source is never consulted again; generation itself reads only the
stored rng), stores a freshly built xorshift-backed `rand.Rand` seeded
with that single draw into the unexported `rng` field, and leaves the
`RngSource` and `Flags` fields otherwise unchanged.  A second call sharing
the same args overwrites `rng` in turn, seeded with the next stream
value. -/
theorem newgenerator_mutates_args (parse : Nat → Except CompileError Regexp)
    (globalSeed : Int) (args : GeneratorArgs) (src : SourceHandle)
    (hsrc : args.RngSource = some src) :
    ((NewGenerator parse globalSeed (some args)).1.RngSource =
      some { src with pos := src.pos + 1 }) ∧
    ((NewGenerator parse globalSeed (some args)).1.RngSource.map
      SourceHandle.stream = some src.stream) ∧
    ((NewGenerator parse globalSeed (some args)).1.Flags = args.Flags) ∧
    ((NewGenerator parse globalSeed (some args)).1.rng =
      some ⟨u64ofInt (src.stream src.pos)⟩) ∧
    (∀ src' : SourceHandle,
      (NewGenerator parse globalSeed
        (some { args with RngSource := some src' })).2 =
      (NewGenerator parse globalSeed (some args)).2) ∧
    ((NewGenerator parse globalSeed
        (some (NewGenerator parse globalSeed (some args)).1)).1.rng =
      some ⟨u64ofInt (src.stream (src.pos + 1))⟩) := by
  refine ⟨?_, ?_, ?_, ?_, ?_, ?_⟩ <;>
    simp [NewGenerator, hsrc, SourceHandle.Int63]

theorem newgenerator_mutates_args_witness :
    (NewGenerator (fun _ => .ok .emptyMatch) 7
        (some ⟨some ⟨fun k => (k : Int) + 5, 0⟩, 0, none⟩)).1.rng =
      some ⟨u64ofInt ((fun k => (k : Int) + 5) 0)⟩ :=
  (newgenerator_mutates_args (fun _ => .ok .emptyMatch) 7
    ⟨some ⟨fun k => (k : Int) + 5, 0⟩, 0, none⟩ ⟨fun k => (k : Int) + 5, 0⟩
    rfl).2.2.2.1
